import Mathlib

/-
Shallow embedding of the media grouping / segmentation-detection / dedupe-matching
engine of the DMS repository (src/src/scanner.py), together with theorems settling
the specification claims about it.

Filenames are modelled as Lean strings (lists of characters); the Python regular
expressions used by the scanner are translated into explicit character-list
matchers that follow the backtracking behaviour of the Python `re` engine on the
anchored patterns in question.  Python `str.lower` is modelled by ASCII
`Char.toLower`, which agrees with it on ASCII filenames.
-/

set_option autoImplicit false

namespace DMS

/-- Python whitespace class `\s` (ASCII part), also used by `str.strip()`. -/
def isPySpace (c : Char) : Bool :=
  c = ' ' || c = '\t' || c = '\n' || c = '\r' || c = '\x0b' || c = '\x0c'

/-- Python `str.lower` on a character list (ASCII case folding). -/
def lowerL (l : List Char) : List Char := l.map Char.toLower

/-- Python `str.lower` on a string (ASCII case folding). -/
def lowerStr (s : String) : String := ⟨lowerL s.data⟩

/-- Python `str.strip()` with no argument: remove leading and trailing whitespace. -/
def pyStrip (l : List Char) : List Char :=
  ((l.dropWhile isPySpace).reverse.dropWhile isPySpace).reverse

/-- Python `str.strip(" .-_")` used on the captured segment root (scanner.py:51). -/
def isRootStripChar (c : Char) : Bool :=
  c = ' ' || c = '.' || c = '-' || c = '_'

/-- Strip the characters of `" .-_"` from both ends (scanner.py:51). -/
def stripRootChars (l : List Char) : List Char :=
  ((l.dropWhile isRootStripChar).reverse.dropWhile isRootStripChar).reverse

/-- Numeric value of a list of decimal digits, as Python `int` does on it. -/
def digitsToNat (l : List Char) : Nat :=
  l.foldl (fun acc c => 10 * acc + (c.toNat - '0'.toNat)) 0

/-- Matcher for `\d{1,3}$`: the remaining characters are one to three digits. -/
def isDigits1to3 (l : List Char) : Bool :=
  decide (1 ≤ l.length) && decide (l.length ≤ 3) && l.all Char.isDigit

/-- Split a list around its last occurrence of the character `[`
(used for the trailing-bracket stripper, which works on the reversed stem). -/
def splitAtLastOpen : List Char → Option (List Char × List Char)
  | [] => none
  | c :: cs =>
    match splitAtLastOpen cs with
    | some (a, b) => some (c :: a, b)
    | none => if c = '[' then some ([], cs) else none

/-- One application of `re.sub(r"\s*\[[^\]]+\]\s*$", "", s)` (scanner.py:41 and
scanner.py:88): remove one trailing bracketed token together with the maximal
whitespace run before it and any trailing whitespace after it.  Returns `none`
when the pattern does not match (so `new_val == s` and the loop stops).
The leftmost match anchored at the end pairs the final `]` (after trailing
whitespace) with the first `[` that has no `]` between it and that final `]`,
the bracket content being nonempty. -/
def stripOneBracket (l : List Char) : Option (List Char) :=
  let r := (l.reverse).dropWhile isPySpace
  match r with
  | ']' :: rest =>
    let contentRev := rest.takeWhile (fun c => c ≠ ']')
    let rest2 := rest.drop contentRev.length
    match splitAtLastOpen contentRev with
    | some (a, b) =>
      if a.isEmpty then none
      else some (((b ++ rest2).dropWhile isPySpace).reverse)
    | none => none
  | _ => none

/-- Fuelled iteration of `stripOneBracket` (the `while True` loop at
scanner.py:40-44 and scanner.py:87-91); each successful strip removes at least
three characters, so `l.length` steps of fuel always suffice. -/
def stripBracketsFuel : Nat → List Char → List Char
  | 0, l => l
  | Nat.succ n, l =>
    match stripOneBracket l with
    | some l2 => stripBracketsFuel n l2
    | none => l

/-- Repeatedly strip trailing bracketed tokens (`_strip_trailing_brackets_from_stem`
at scanner.py:84-94, and the loop inside `_normalize_name` at scanner.py:37-46). -/
def stripTrailingBrackets (l : List Char) : List Char :=
  stripBracketsFuel l.length l

/-- Separator class `[\._\-]` of the third segment pattern (scanner.py:20). -/
def sepChar3 (c : Char) : Bool := c = '.' || c = '_' || c = '-'

/-- Separator class `[\._\-\s]` of the first segment pattern (scanner.py:18). -/
def sepCharWs (c : Char) : Bool := sepChar3 c || isPySpace c

/-- Matcher for the third segment pattern `^(?P<root>.*?)[\._\-](?P<num>\d{1,3})$`
(scanner.py:20).  The lazy `root` group means the leftmost separator position
whose remainder is one to three digits wins. -/
def matchPat3 : List Char → Option (List Char × Nat)
  | [] => none
  | c :: cs =>
    if sepChar3 c && isDigits1to3 cs then some ([], digitsToNat cs)
    else
      match matchPat3 cs with
      | some (root, n) => some (c :: root, n)
      | none => none

/-- Matcher for the second segment pattern
`^(?P<root>.*?)[\s]*\((?P<num>\d{1,3})\)$` (scanner.py:19): the stem must end
with a parenthesized group of one to three digits; the whitespace run before
the opening parenthesis is absorbed, the rest is the root. -/
def matchPat2 (l : List Char) : Option (List Char × Nat) :=
  match l.reverse with
  | ')' :: r1 =>
    let digsRev := r1.takeWhile Char.isDigit
    match r1.drop digsRev.length with
    | '(' :: r3 =>
      if decide (1 ≤ digsRev.length) && decide (digsRev.length ≤ 3) then
        some ((r3.dropWhile isPySpace).reverse, digitsToNat digsRev.reverse)
      else none
    | _ => none
  | _ => none

/-- Case-insensitive literal keyword match at the front of the list; returns the
remainder on success. -/
def dropKw : List Char → List Char → Option (List Char)
  | [], rest => some rest
  | _, [] => none
  | k :: ks, c :: cs => if Char.toLower c = k then dropKw ks cs else none

/-- Matcher for the tail `[\._\-\s]*?(?P<num>\d{1,3})$` of the first segment
pattern: the lazy separator run tries zero characters first, then expands one
separator character at a time. -/
def lazySepThenDigits : List Char → Option Nat
  | [] => none
  | c :: cs =>
    if isDigits1to3 (c :: cs) then some (digitsToNat (c :: cs))
    else if sepCharWs c then lazySepThenDigits cs
    else none

/-- One keyword alternative of the first pattern followed by its tail. -/
def tryKw1 (kw : List Char) (l : List Char) : Option Nat :=
  match dropKw kw l with
  | some rest => lazySepThenDigits rest
  | none => none

/-- The alternation `(?:part|seg|segment)` tried left to right, each followed by
the lazy separator run and the digits (scanner.py:18). -/
def tryKws (l : List Char) : Option Nat :=
  match tryKw1 ['p', 'a', 'r', 't'] l with
  | some n => some n
  | none =>
    match tryKw1 ['s', 'e', 'g'] l with
    | some n => some n
    | none => tryKw1 ['s', 'e', 'g', 'm', 'e', 'n', 't'] l

/-- Matcher for `[\._\-\s]?(?:part|seg|segment)[\._\-\s]*?\d{1,3}$` at a fixed
position: the greedy optional separator tries consuming one character first. -/
def matchPat1From (l : List Char) : Option Nat :=
  match l with
  | [] => tryKws []
  | c :: cs =>
    if sepCharWs c then
      match tryKws cs with
      | some n => some n
      | none => tryKws l
    else tryKws l

/-- Matcher for the first segment pattern
`^(?P<root>.*?)[\._\-\s]?(?:part|seg|segment)[\._\-\s]*?(?P<num>\d{1,3})$`
with `re.IGNORECASE` (scanner.py:18): the lazy root tries positions left to
right. -/
def matchPat1 : List Char → Option (List Char × Nat)
  | [] =>
    match matchPat1From [] with
    | some n => some ([], n)
    | none => none
  | c :: cs =>
    match matchPat1From (c :: cs) with
    | some n => some ([], n)
    | none =>
      match matchPat1 cs with
      | some (root, n) => some (c :: root, n)
      | none => none

/-- The range guard `1 <= num <= 999` and root cleanup applied to a raw pattern
match (scanner.py:51-55); a match whose number is out of range is discarded and
the next pattern is tried. -/
def acceptMatch (m : Option (List Char × Nat)) : Option (List Char × Nat) :=
  match m with
  | some (root, n) =>
    if decide (1 ≤ n) && decide (n ≤ 999) then some (stripRootChars root, n) else none
  | none => none

/-- `_normalize_name` (scanner.py:24-58): parse `(root, segment?)` from a
filename stem.  The stem is whitespace-stripped, trailing bracketed tokens are
removed for segment detection, and the three segment patterns are tried in
order; on no acceptable match the stripped stem itself is the root. -/
def normalizeName (stem : List Char) : List Char × Option Nat :=
  let stem1 := pyStrip stem
  let stemForSeg := stripTrailingBrackets stem1
  match acceptMatch (matchPat1 stemForSeg) with
  | some (root, n) => (root, some n)
  | none =>
    match acceptMatch (matchPat2 stemForSeg) with
    | some (root, n) => (root, some n)
    | none =>
      match acceptMatch (matchPat3 stemForSeg) with
      | some (root, n) => (root, some n)
      | none => (stem1, none)

/-- String wrapper for `_normalize_name`. -/
def normalizeNameS (stem : String) : String × Option Nat :=
  let rn := normalizeName stem.data
  (⟨rn.1⟩, rn.2)

/-- Split a lowercased filename at the last dot (`name_l.rfind` at
scanner.py:99-105): when the last dot is at index zero or absent (`dot <= 0`)
the whole name is the base and the extension is empty. -/
def splitExt (l : List Char) : List Char × List Char :=
  let extRev := l.reverse.takeWhile (fun c => c ≠ '.')
  if extRev.length + 1 ≤ l.length then
    let dotIdx := l.length - extRev.length - 1
    if dotIdx = 0 then (l, []) else (l.take dotIdx, l.drop dotIdx)
  else (l, [])

/-- Python `str.replace` for a single-character pattern and replacement. -/
def pyReplaceChar (a b : Char) (l : List Char) : List Char :=
  l.map (fun c => if c = a then b else c)

/-- `.replace('[', '').replace(']', '')`: delete all square brackets. -/
def removeBrackChars (l : List Char) : List Char :=
  l.filter (fun c => !(c = '[' || c = ']'))

/-- Matcher for `re.search(r'^([^[\s]+)\s*\[([^\]]+)\](.*)$', base)`
(scanner.py:116): a nonempty maximal run of characters that are neither `[`
nor whitespace, an absorbed whitespace run, a bracketed nonempty group free of
`]`, and the remaining suffix.  The anchors make the maximal first run the
only candidate, as the first group cannot contain the whitespace or `[` that
shrinking it would have to re-match. -/
def bracketMatch (l : List Char) : Option (List Char × List Char × List Char) :=
  let pre := l.takeWhile (fun c => !(c = '[' || isPySpace c))
  if pre.isEmpty then none
  else
    match (l.drop pre.length).dropWhile isPySpace with
    | '[' :: r2 =>
      let content := r2.takeWhile (fun c => c ≠ ']')
      match r2.drop content.length with
      | ']' :: suf => if content.isEmpty then none else some (pre, content, suf)
      | _ => none
    | _ => none

/-- Matcher for `re.search(r'^([^\s_]+)_([^\s_]+)(.*)$', base)` (scanner.py:126):
two nonempty maximal runs of characters that are neither whitespace nor `_`,
separated by a single underscore, and the remaining suffix. -/
def underscoreMatch (l : List Char) : Option (List Char × List Char × List Char) :=
  let h1 := l.takeWhile (fun c => !(c = '_' || isPySpace c))
  if h1.isEmpty then none
  else
    match l.drop h1.length with
    | '_' :: r2 =>
      let h2 := r2.takeWhile (fun c => !(c = '_' || isPySpace c))
      if h2.isEmpty then none else some (h1, h2, r2.drop h2.length)
    | _ => none

/-- `_variants` (scanner.py:96-147): the list of alternate spellings of a
filename considered equivalent by the dedupe filter, in the order the code
appends them: the lowercased name; the bracket-stripped form; the
bracket-to-underscore hash form; the underscore-to-bracket hash form; the
space-to-underscore bracket-removing form; the underscore-to-space form.
A transform result is appended only when it differs from the lowercased name.
The `try`/`except` wrappers in the source cannot fire on these pure string
operations and are not modelled. -/
def variantsL (name : List Char) : List (List Char) :=
  let nameL := lowerL name
  let be := splitExt nameL
  let base := be.1
  let ext := be.2
  let vs0 := [nameL]
  let stripped := stripTrailingBrackets base ++ ext
  let vs1 := if stripped = nameL then vs0 else vs0 ++ [stripped]
  let vs2 :=
    match bracketMatch base with
    | some (pre, content, suf) =>
      if pyStrip content = pyStrip pre then vs1 ++ [pre ++ ('_' :: (content ++ suf ++ ext))]
      else vs1
    | none => vs1
  let vs3 :=
    match underscoreMatch base with
    | some (h1, h2, suf) =>
      if h1 = h2 then vs2 ++ [h1 ++ (' ' :: '[' :: (h2 ++ (']' :: (suf ++ ext))))]
      else vs2
    | none => vs2
  let discord := removeBrackChars (pyReplaceChar ' ' '_' base) ++ ext
  let vs4 := if discord = nameL then vs3 else vs3 ++ [discord]
  let sp := pyReplaceChar '_' ' ' base ++ ext
  if sp = nameL then vs4 else vs4 ++ [sp]

/-- String wrapper for `_variants`. -/
def pyVariants (name : String) : List String :=
  (variantsL name.data).map (fun l => ⟨l⟩)

/-- A file path as the scanner sees it: the POSIX relative directory of its
parent (`"."` for the scan root, as `Path.relative_to(...).as_posix()`
produces), the stem, and the `Path.suffix` with original case (including the
leading dot, empty when the name has no extension). -/
structure MPath where
  dir : String
  stem : String
  ext : String
deriving DecidableEq, Repr

/-- `Path.name`: filename with extension. -/
def MPath.name (p : MPath) : String := p.stem ++ p.ext

/-- `PairItem` (scanner.py:61-65). -/
structure PairItem where
  root_key : String
  mp4_path : MPath
  gif_path : MPath
deriving DecidableEq, Repr

/-- `SingleItem` (scanner.py:68-71). -/
structure SingleItem where
  root_key : String
  path : MPath
deriving DecidableEq, Repr

/-- `ScanResult` (scanner.py:74-77). -/
structure ScanResult where
  pairs : List PairItem
  singles : List SingleItem
deriving DecidableEq, Repr

/-- The variant-expanded catalog `existing_l` (scanner.py:149-152): the union
of the variants of every remote filename.  The catalog set is modelled as a
list used only through membership. -/
def expandExisting (existing : List String) : List String :=
  (existing.map pyVariants).flatten

/-- The membership test `any(v in existing_l for v in _variants(name))`
(scanner.py:157-158); the second pair loop uses the set intersection
`bool(set(_variants(name)) & existing_l)` (scanner.py:179-182), which is the
same boolean. -/
def nameMatches (existingL : List String) (name : String) : Bool :=
  (pyVariants name).any (fun v => existingL.contains v)

/-- The `else` branch of one iteration of the pair loop (scanner.py:161-165 and
scanner.py:185-189): a pair with at least one matched member contributes its
unmatched members as leftover singles carrying the pair root key. -/
def pairLeftover (existingL : List String) (p : PairItem) : List SingleItem :=
  let m := nameMatches existingL p.mp4_path.name
  let g := nameMatches existingL p.gif_path.name
  if !m && !g then []
  else
    (if !m then [⟨p.root_key, p.mp4_path⟩] else []) ++
      (if !g then [⟨p.root_key, p.gif_path⟩] else [])

/-- The leftover singles appended by one full pass of the pair loop. -/
def leftoverSingles (existingL : List String) : List PairItem → List SingleItem
  | [] => []
  | p :: ps => pairLeftover existingL p ++ leftoverSingles existingL ps

/-- `ScanResult.filter_against_filenames` (scanner.py:79-194).  The source runs
the pair loop twice: the first pass (scanner.py:154-165) builds a
`filtered_pairs` list that the re-binding at scanner.py:177 discards, but its
appends to `leftover_singles` survive; the second pass (scanner.py:177-189)
rebuilds the kept pairs and appends the same leftover singles again.  The
`planned_variants` set built at scanner.py:167-175 is never read and does not
affect the result. -/
def ScanResult.filter_against_filenames (r : ScanResult) (existing : List String) :
    ScanResult :=
  let existingL := expandExisting existing
  let leftover1 := leftoverSingles existingL r.pairs
  let keptPairs := r.pairs.filter (fun p =>
    !(nameMatches existingL p.mp4_path.name) && !(nameMatches existingL p.gif_path.name))
  let leftovers := leftover1 ++ leftoverSingles existingL r.pairs
  let keptSingles := r.singles.filter (fun s => !(nameMatches existingL s.path.name))
  ⟨keptPairs, keptSingles ++ leftovers⟩

/-- The recognized media extensions `MEDIA_EXTS` (scanner.py:9-14), listed with
the video extensions first, then gif, then images. -/
def mediaExtsL : List String :=
  [".mp4", ".webm", ".mov", ".mkv", ".gif", ".png", ".jpg", ".jpeg", ".webp"]

/-- The media test `p.suffix.lower() in MEDIA_EXTS` (scanner.py:207-208 and
scanner.py:221). -/
def isMediaFile (p : MPath) : Bool := mediaExtsL.contains (lowerStr p.ext)

/-- The stems of `all_media_files` (scanner.py:221 and scanner.py:230): the
media files in the same physical parent directory as `p` (for a root-level
file the parent is the scan root itself, which is the same sibling set). -/
def siblingStems (fs : List MPath) (p : MPath) : List String :=
  (fs.filter (fun f => f.dir = p.dir && isMediaFile f)).map MPath.stem

/-- `len(root_counts.get(file_root.lower(), []))` (scanner.py:231-245): the
number of sibling stems that parse to a segment number and whose lowercased
root equals the given one.  Note the count is taken with multiplicity, not
over distinct segment numbers. -/
def segCountForRoot (stems : List String) (rootL : String) : Nat :=
  (stems.filterMap (fun s =>
    let rn := normalizeNameS s
    match rn.2 with
    | some k => some (lowerStr rn.1, k)
    | none => none)).countP (fun rn => rn.1 = rootL)

/-- A bucket key `(dir_key, root_name.lower(), seg_num)` (scanner.py:254). -/
abbrev BKey := String × String × Option Nat

/-- The bucket key computed for one file (scanner.py:210-254): a file whose
stem parses to a segment number is bucketed under its segment root and number
only when more than one sibling segment stem shares the lowercased root;
otherwise it is bucketed under its literal stem with no segment number. -/
def bucketKeyFor (fs : List MPath) (p : MPath) : BKey :=
  let dirKey := p.dir
  let rn := normalizeNameS p.stem
  match rn.2 with
  | none => (dirKey, lowerStr p.stem, none)
  | some n =>
    if segCountForRoot (siblingStems fs p) (lowerStr rn.1) > 1 then
      (dirKey, lowerStr rn.1, some n)
    else (dirKey, lowerStr p.stem, none)

/-- `buckets[key][ext] = p` on the inner extension dictionary: replace the
value in place when the extension is present, append otherwise. -/
def updateExt (l : List (String × MPath)) (ext : String) (p : MPath) :
    List (String × MPath) :=
  match l with
  | [] => [(ext, p)]
  | (e, q) :: rest =>
    if e = ext then (ext, p) :: rest else (e, q) :: updateExt rest ext p

/-- Python `dict.get` on the extension dictionary. -/
def lookupExt (l : List (String × MPath)) (ext : String) : Option MPath :=
  match l with
  | [] => none
  | (e, q) :: rest => if e = ext then some q else lookupExt rest ext

/-- Insert one file into the bucket dictionary (scanner.py:255-257), keeping
first-insertion order of keys and of extensions within a bucket, as Python
dictionaries do. -/
def insertBucket (bs : List (BKey × List (String × MPath))) (k : BKey)
    (ext : String) (p : MPath) : List (BKey × List (String × MPath)) :=
  match bs with
  | [] => [(k, [(ext, p)])]
  | (k', fl) :: rest =>
    if k' = k then (k', updateExt fl ext p) :: rest
    else (k', fl) :: insertBucket rest k ext p

/-- The bucket-building loop of `scan_media` (scanner.py:204-257) over the
recursive file enumeration, skipping non-media files. -/
def buildBuckets (fs : List MPath) : List (BKey × List (String × MPath)) :=
  (fs.filter isMediaFile).foldl
    (fun bs p => insertBucket bs (bucketKeyFor fs p) (lowerStr p.ext) p) []

/-- Lexicographic strict comparison of character lists by code point, the
order Python uses to compare strings. -/
def strLtL : List Char → List Char → Bool
  | [], [] => false
  | [], _ :: _ => true
  | _ :: _, [] => false
  | a :: as, b :: bs =>
    if a.toNat < b.toNat then true
    else if b.toNat < a.toNat then false
    else strLtL as bs

/-- Python string `<` on Lean strings. -/
def strLt (a b : String) : Bool := strLtL a.data b.data

/-- `_sort_key` (scanner.py:260-262) as a boolean total order on bucket keys:
compare the directory key, then the root name, then `seg_num is not None`,
then `seg_num or 0`.  String comparison is code-point lexicographic, as in
Python. -/
def keyLe (a b : BKey) : Bool :=
  if a.1 ≠ b.1 then strLt a.1 b.1
  else if a.2.1 ≠ b.2.1 then strLt a.2.1 b.2.1
  else if a.2.2.isSome ≠ b.2.2.isSome then !a.2.2.isSome
  else decide (a.2.2.getD 0 ≤ b.2.2.getD 0)

/-- Stable insertion into a sorted list under `keyLe` on the bucket key. -/
def insertSorted (x : BKey × List (String × MPath)) :
    List (BKey × List (String × MPath)) → List (BKey × List (String × MPath))
  | [] => [x]
  | y :: ys => if keyLe x.1 y.1 then x :: y :: ys else y :: insertSorted x ys

/-- `sorted(buckets.items(), key=_sort_key)` (scanner.py:264): the bucket keys
are pairwise distinct, and distinct keys have distinct sort keys, so any
correct sort produces the same order; insertion sort is used here. -/
def sortBuckets (bs : List (BKey × List (String × MPath))) :
    List (BKey × List (String × MPath)) :=
  bs.foldr insertSorted []

/-- Emission for one bucket (scanner.py:264-280): a bucket holding both an
`.mp4` and a `.gif` becomes one pair; otherwise each member becomes a single,
the `.mp4` first, then the `.gif`, then the remaining media extensions in
dictionary order. -/
def emitBucket (kf : BKey × List (String × MPath)) : List PairItem × List SingleItem :=
  let rk := kf.1.1 ++ "/" ++ kf.1.2.1
  match lookupExt kf.2 ".mp4", lookupExt kf.2 ".gif" with
  | some mp4, some gif => ([⟨rk, mp4, gif⟩], [])
  | omp4, ogif =>
    let s1 := match omp4 with | some m => [(⟨rk, m⟩ : SingleItem)] | none => []
    let s2 := match ogif with | some g => [(⟨rk, g⟩ : SingleItem)] | none => []
    let others := (kf.2.filter (fun ep =>
      ep.1 != ".mp4" && ep.1 != ".gif" && mediaExtsL.contains ep.1)).map
      (fun ep => (⟨rk, ep.2⟩ : SingleItem))
    ([], s1 ++ s2 ++ others)

/-- The emission loop over the sorted buckets, concatenating the per-bucket
pairs and singles in bucket order. -/
def emitAll : List (BKey × List (String × MPath)) → List PairItem × List SingleItem
  | [] => ([], [])
  | b :: bs =>
    let ps := emitBucket b
    let rest := emitAll bs
    (ps.1 ++ rest.1, ps.2 ++ rest.2)

/-- `scan_media` (scanner.py:197-282) over a modelled directory tree: the input
list holds every regular file under the scan root in traversal order. -/
def scan_media (fs : List MPath) : ScanResult :=
  let es := emitAll (sortBuckets (buildBuckets fs))
  ⟨es.1, es.2⟩

/-- The bucket keys in emission order, used to state ordering facts. -/
def sortedBucketKeys (fs : List MPath) : List BKey :=
  (sortBuckets (buildBuckets fs)).map (fun b => b.1)

/-- The matching rule of the dedupe component as the specification words it:
a local filename is judged a duplicate exactly when its variant set intersects
the variant-expanded remote catalog. -/
def variantHit (existing : List String) (n : String) : Prop :=
  ∃ v ∈ pyVariants n, v ∈ expandExisting existing

instance (existing : List String) (n : String) : Decidable (variantHit existing n) :=
  List.decidableBEx _ _

/-- The names of all pair members, in pair order, mp4 before gif. -/
def pairNames : List PairItem → List String
  | [] => []
  | p :: ps => p.mp4_path.name :: p.gif_path.name :: pairNames ps

/-- All local filenames a `ScanResult` plans to upload (the `planned_names`
universe the diagnostics report over): pair members first, then singles. -/
def memberNames (r : ScanResult) : List String :=
  pairNames r.pairs ++ r.singles.map (fun s => s.path.name)

/-- Modelled from the spec: `get_dedupe_diagnostics` is invoked on a
`ScanResult` from `send_media_job` (core.py:232) but its definition is not
among the source files.  Per spec section 4.3 it "produces, for observability,
the full list of local filenames considered, ... and the literal list of local
filenames judged duplicate", and "must be derivable purely from the same
matching rule as the filter itself".  The duplicates list is therefore
modelled as the planned local filenames whose variant set intersects the
variant-expanded catalog. -/
def get_dedupe_diagnostics_duplicates (r : ScanResult) (existing : List String) :
    List String :=
  (memberNames r).filter (fun n => nameMatches (expandExisting existing) n)

theorem nameMatches_nil (n : String) : nameMatches (expandExisting []) n = false := by
  simp [nameMatches, expandExisting]

theorem variantHit_iff (existing : List String) (n : String) :
    variantHit existing n ↔ nameMatches (expandExisting existing) n = true := by
  simp [variantHit, nameMatches, List.any_eq_true, List.elem_iff]

theorem mem_pairLeftover {L : List String} {p : PairItem} {x : SingleItem} :
    x ∈ pairLeftover L p ↔
      (nameMatches L p.mp4_path.name = false ∧ nameMatches L p.gif_path.name = true ∧
        x = ⟨p.root_key, p.mp4_path⟩) ∨
      (nameMatches L p.mp4_path.name = true ∧ nameMatches L p.gif_path.name = false ∧
        x = ⟨p.root_key, p.gif_path⟩) := by
  cases hm : nameMatches L p.mp4_path.name <;>
    cases hg : nameMatches L p.gif_path.name <;>
      simp [pairLeftover, hm, hg]

theorem mem_leftoverSingles {L : List String} {ps : List PairItem} {x : SingleItem} :
    x ∈ leftoverSingles L ps ↔ ∃ p ∈ ps, x ∈ pairLeftover L p := by
  induction ps with
  | nil => simp [leftoverSingles]
  | cons p ps ih => simp [leftoverSingles, ih]

theorem leftoverSingles_nil_of {L : List String} {ps : List PairItem}
    (h : ∀ p ∈ ps, nameMatches L p.mp4_path.name = false ∧
      nameMatches L p.gif_path.name = false) :
    leftoverSingles L ps = [] := by
  induction ps with
  | nil => rfl
  | cons p ps ih =>
    have hp := h p (by simp)
    simp [leftoverSingles, pairLeftover, hp.1, hp.2, ih fun q hq => h q (by simp [hq])]

/-- C4: filtering against an empty remote catalog is the identity: the result
has the same pairs and singles, in the same order. -/
theorem filter_empty_catalog_identity (r : ScanResult) :
    r.filter_against_filenames [] = r := by
  obtain ⟨ps, ss⟩ := r
  simp [ScanResult.filter_against_filenames, nameMatches_nil,
    leftoverSingles_nil_of (fun p _ => ⟨nameMatches_nil _, nameMatches_nil _⟩)]

/-- C1: evidence against the claim at its own example.  The sibling files
`clip_1.mp4` and `clip_1.gif` exhibit exactly one distinct segment number for
the root `clip` (both stems normalize to `("clip", 1)`), yet `scan_media`
buckets both under the segmented key `(".", "clip", 1)` and pairs them under
root key `"./clip"` instead of the literal stem key `(".", "clip_1", None)`:
the code counts sibling segment stems with multiplicity, not distinct segment
numbers. -/
theorem scan_media_single_distinct_segment_is_segmented :
    normalizeNameS "clip_1" = ("clip", some 1) ∧
    sortedBucketKeys [⟨".", "clip_1", ".mp4"⟩, ⟨".", "clip_1", ".gif"⟩]
        = [(".", "clip", some 1)] ∧
    scan_media [⟨".", "clip_1", ".mp4"⟩, ⟨".", "clip_1", ".gif"⟩]
        = ⟨[⟨"./clip", ⟨".", "clip_1", ".mp4"⟩, ⟨".", "clip_1", ".gif"⟩⟩], []⟩ := by
  decide

/-- C2: evidence against the claim at its own example.  Filtering the pair
`(root_key="./clip", mp4=clip.mp4, gif=clip.gif)` against `{"clip.gif"}` drops
the pair but emits the residual `SingleItem(root_key="./clip", path=clip.mp4)`
twice, because the pair loop of `filter_against_filenames` runs twice
(scanner.py:154-165 and scanner.py:177-189) and both passes append to the same
`leftover_singles` list. -/
theorem filter_partial_pair_split_duplicates_residual :
    ScanResult.filter_against_filenames
        ⟨[⟨"./clip", ⟨".", "clip", ".mp4"⟩, ⟨".", "clip", ".gif"⟩⟩], []⟩ ["clip.gif"]
      = ⟨[], [⟨"./clip", ⟨".", "clip", ".mp4"⟩⟩, ⟨"./clip", ⟨".", "clip", ".mp4"⟩⟩]⟩ := by
  decide

/-- C9: the variant set of the local filename `"My Clip [ab12].mp4"` intersects
the variant sets of both remote filenames `"My_Clip_ab12.mp4"` and
`"my clip.mp4"`, and `filter_against_filenames` accordingly judges the local
file a duplicate (drops it) against a catalog containing either remote name. -/
theorem variant_matching_symmetry :
    (pyVariants "My Clip [ab12].mp4").inter (pyVariants "My_Clip_ab12.mp4") ≠ [] ∧
    (pyVariants "My Clip [ab12].mp4").inter (pyVariants "my clip.mp4") ≠ [] ∧
    (ScanResult.filter_against_filenames
        ⟨[], [⟨"./My Clip [ab12]", ⟨".", "My Clip [ab12]", ".mp4"⟩⟩]⟩
        ["My_Clip_ab12.mp4"]).singles = [] ∧
    (ScanResult.filter_against_filenames
        ⟨[], [⟨"./My Clip [ab12]", ⟨".", "My Clip [ab12]", ".mp4"⟩⟩]⟩
        ["my clip.mp4"]).singles = [] := by
  decide

/-- C6: counterexample to the ordering part of the claim.  For the directory
holding `video.mp4`, `video.gif`, `photo.png`, `clip_1.mp4`, `clip_2.mp4`, the
segmented `clip` buckets sort BEFORE the `video` bucket (and before `photo`),
because `_sort_key` orders primarily by `(directory_key, normalized_root)` and
`"clip" < "photo" < "video"`; the claimed "non-segmented buckets before
segmented ones" tiebreak applies only at equal roots.  The singles list is
therefore `[clip_1, clip_2, photo]`, not `[photo, clip_1, clip_2]`. -/
theorem scan_media_end_to_end_bucket_order_counterexample :
    sortedBucketKeys [⟨".", "video", ".mp4"⟩, ⟨".", "video", ".gif"⟩,
        ⟨".", "photo", ".png"⟩, ⟨".", "clip_1", ".mp4"⟩, ⟨".", "clip_2", ".mp4"⟩]
      = [(".", "clip", some 1), (".", "clip", some 2), (".", "photo", none),
          (".", "video", none)] ∧
    (scan_media [⟨".", "video", ".mp4"⟩, ⟨".", "video", ".gif"⟩,
        ⟨".", "photo", ".png"⟩, ⟨".", "clip_1", ".mp4"⟩, ⟨".", "clip_2", ".mp4"⟩]).singles.map
        (fun s => s.path.stem)
      ≠ ["photo", "clip_1", "clip_2"] := by
  decide

/-- C6 as amended: for that directory `scan_media` returns exactly one pair
(`video`) and the three singles `clip_1.mp4`, `clip_2.mp4`, `photo.png`; the
clip singles both carry root key `"./clip"` and appear in ascending segment
order, but their buckets precede the `video` bucket, so the singles list is
`[clip_1, clip_2, photo]`. -/
theorem scan_media_end_to_end_amended :
    scan_media [⟨".", "video", ".mp4"⟩, ⟨".", "video", ".gif"⟩,
        ⟨".", "photo", ".png"⟩, ⟨".", "clip_1", ".mp4"⟩, ⟨".", "clip_2", ".mp4"⟩]
      = ⟨[⟨"./video", ⟨".", "video", ".mp4"⟩, ⟨".", "video", ".gif"⟩⟩],
          [⟨"./clip", ⟨".", "clip_1", ".mp4"⟩⟩, ⟨"./clip", ⟨".", "clip_2", ".mp4"⟩⟩,
            ⟨"./photo", ⟨".", "photo", ".png"⟩⟩]⟩ := by
  decide

theorem filter_pairs_eq (r : ScanResult) (E : List String) :
    (r.filter_against_filenames E).pairs
      = r.pairs.filter (fun p =>
          !(nameMatches (expandExisting E) p.mp4_path.name) &&
            !(nameMatches (expandExisting E) p.gif_path.name)) := rfl

theorem filter_singles_eq (r : ScanResult) (E : List String) :
    (r.filter_against_filenames E).singles
      = r.singles.filter (fun s => !(nameMatches (expandExisting E) s.path.name))
        ++ (leftoverSingles (expandExisting E) r.pairs
            ++ leftoverSingles (expandExisting E) r.pairs) := rfl

theorem mem_filter_pairs {r : ScanResult} {E : List String} {p : PairItem}
    (h : p ∈ (r.filter_against_filenames E).pairs) :
    p ∈ r.pairs ∧ nameMatches (expandExisting E) p.mp4_path.name = false ∧
      nameMatches (expandExisting E) p.gif_path.name = false := by
  rw [filter_pairs_eq] at h
  have h2 := List.mem_filter.mp h
  have h3 := h2.2
  simp only [Bool.and_eq_true, Bool.not_eq_true'] at h3
  exact ⟨h2.1, h3.1, h3.2⟩

theorem mem_filter_singles {r : ScanResult} {E : List String} {x : SingleItem}
    (h : x ∈ (r.filter_against_filenames E).singles) :
    nameMatches (expandExisting E) x.path.name = false := by
  rw [filter_singles_eq] at h
  rcases List.mem_append.mp h with h1 | h2
  · simpa using (List.mem_filter.mp h1).2
  · have h3 : x ∈ leftoverSingles (expandExisting E) r.pairs := by
      rcases List.mem_append.mp h2 with h3 | h3 <;> exact h3
    obtain ⟨p, _, hx⟩ := mem_leftoverSingles.mp h3
    rcases mem_pairLeftover.mp hx with ⟨hm, _, rfl⟩ | ⟨_, hg, rfl⟩
    · exact hm
    · exact hg

theorem scanResult_ext {x y : ScanResult} (h1 : x.pairs = y.pairs)
    (h2 : x.singles = y.singles) : x = y := by
  cases x; cases y; cases h1; cases h2; rfl

/-- C5: `filter_against_filenames` is idempotent: filtering an already filtered
`ScanResult` against the same catalog changes nothing. -/
theorem filter_idempotent (r : ScanResult) (E : List String) :
    (r.filter_against_filenames E).filter_against_filenames E
      = r.filter_against_filenames E := by
  have hpairs : ∀ p ∈ (r.filter_against_filenames E).pairs,
      (!(nameMatches (expandExisting E) p.mp4_path.name) &&
        !(nameMatches (expandExisting E) p.gif_path.name)) = true := by
    intro p hp
    have h2 := mem_filter_pairs hp
    simp [h2.2.1, h2.2.2]
  have hsingles : ∀ s ∈ (r.filter_against_filenames E).singles,
      (!(nameMatches (expandExisting E) s.path.name)) = true := by
    intro s hs
    simp [mem_filter_singles hs]
  have hleft : leftoverSingles (expandExisting E)
      (r.filter_against_filenames E).pairs = [] :=
    leftoverSingles_nil_of fun p hp => (mem_filter_pairs hp).2
  apply scanResult_ext
  · rw [filter_pairs_eq, List.filter_eq_self.mpr hpairs]
  · rw [filter_singles_eq, hleft, List.filter_eq_self.mpr hsingles]
    simp

theorem mem_updateExt {l : List (String × MPath)} {e : String} {q : MPath}
    {x : String × MPath} (h : x ∈ updateExt l e q) : x = (e, q) ∨ x ∈ l := by
  induction l with
  | nil => simpa [updateExt] using h
  | cons hd tl ih =>
    obtain ⟨a, b⟩ := hd
    by_cases hae : a = e
    · subst hae
      simp only [updateExt, if_pos rfl] at h
      rcases List.mem_cons.mp h with h1 | h1
      · exact Or.inl h1
      · exact Or.inr (List.mem_cons_of_mem _ h1)
    · simp only [updateExt, if_neg hae] at h
      rcases List.mem_cons.mp h with h1 | h1
      · exact Or.inr (h1 ▸ List.mem_cons_self _ _)
      · rcases ih h1 with h2 | h2
        · exact Or.inl h2
        · exact Or.inr (List.mem_cons_of_mem _ h2)

theorem lookupExt_mem {l : List (String × MPath)} {e : String} {q : MPath}
    (h : lookupExt l e = some q) : (e, q) ∈ l := by
  induction l with
  | nil => simp [lookupExt] at h
  | cons hd tl ih =>
    obtain ⟨a, b⟩ := hd
    simp only [lookupExt] at h
    split at h
    · next hae =>
      injection h with h
      subst h
      subst hae
      exact List.mem_cons_self _ _
    · exact List.mem_cons_of_mem _ (ih h)

/-- The invariant that inner bucket dictionaries key each stored path by its
lowercased extension. -/
def bucketsExtSound (bs : List (BKey × List (String × MPath))) : Prop :=
  ∀ kf ∈ bs, ∀ ep ∈ kf.2, ep.1 = lowerStr ep.2.ext

theorem insertBucket_sound {bs : List (BKey × List (String × MPath))} {k : BKey}
    {e : String} {p : MPath} (he : e = lowerStr p.ext) (h : bucketsExtSound bs) :
    bucketsExtSound (insertBucket bs k e p) := by
  induction bs with
  | nil =>
    intro kf hkf ep hep
    simp only [insertBucket, List.mem_singleton] at hkf
    subst hkf
    simp only [List.mem_singleton] at hep
    subst hep
    exact he
  | cons hd tl ih =>
    obtain ⟨k', fl⟩ := hd
    by_cases hk : k' = k
    · subst hk
      simp only [insertBucket, if_pos rfl]
      intro kf hkf ep hep
      rcases List.mem_cons.mp hkf with h1 | h1
      · subst h1
        rcases mem_updateExt hep with h2 | h2
        · subst h2; exact he
        · exact h (k', fl) (List.mem_cons_self _ _) ep h2
      · exact h kf (List.mem_cons_of_mem _ h1) ep hep
    · simp only [insertBucket, if_neg hk]
      intro kf hkf ep hep
      rcases List.mem_cons.mp hkf with h1 | h1
      · exact h kf (h1 ▸ List.mem_cons_self _ _) ep hep
      · exact ih (fun b hb => h b (List.mem_cons_of_mem _ hb)) kf h1 ep hep

theorem foldl_insert_sound (l : List MPath) (fs : List MPath)
    (acc : List (BKey × List (String × MPath))) (h : bucketsExtSound acc) :
    bucketsExtSound (l.foldl
      (fun bs p => insertBucket bs (bucketKeyFor fs p) (lowerStr p.ext) p) acc) := by
  induction l generalizing acc with
  | nil => exact h
  | cons p l ih => exact ih _ (insertBucket_sound rfl h)

theorem buildBuckets_sound (fs : List MPath) : bucketsExtSound (buildBuckets fs) :=
  foldl_insert_sound _ _ _ (fun _kf hkf => absurd hkf (List.not_mem_nil _))

theorem mem_insertSorted {x y : BKey × List (String × MPath)}
    {l : List (BKey × List (String × MPath))} (h : x ∈ insertSorted y l) :
    x = y ∨ x ∈ l := by
  induction l with
  | nil => simpa [insertSorted] using h
  | cons hd tl ih =>
    simp only [insertSorted] at h
    split at h
    · rcases List.mem_cons.mp h with h1 | h1
      · exact Or.inl h1
      · exact Or.inr h1
    · rcases List.mem_cons.mp h with h1 | h1
      · exact Or.inr (h1 ▸ List.mem_cons_self _ _)
      · rcases ih h1 with h2 | h2
        · exact Or.inl h2
        · exact Or.inr (List.mem_cons_of_mem _ h2)

theorem mem_sortBuckets {x : BKey × List (String × MPath)}
    {bs : List (BKey × List (String × MPath))} (h : x ∈ sortBuckets bs) : x ∈ bs := by
  induction bs with
  | nil => simp [sortBuckets] at h
  | cons b tl ih =>
    have h2 : x ∈ insertSorted b (sortBuckets tl) := h
    rcases mem_insertSorted h2 with h3 | h3
    · exact h3 ▸ List.mem_cons_self _ _
    · exact List.mem_cons_of_mem _ (ih h3)

theorem emitBucket_pair {b : BKey × List (String × MPath)} {pr : PairItem}
    (h : pr ∈ (emitBucket b).1) :
    lookupExt b.2 ".mp4" = some pr.mp4_path ∧
      lookupExt b.2 ".gif" = some pr.gif_path := by
  cases hm : lookupExt b.2 ".mp4" with
  | none => simp [emitBucket, hm] at h
  | some m =>
    cases hg : lookupExt b.2 ".gif" with
    | none => simp [emitBucket, hm, hg] at h
    | some g =>
      simp only [emitBucket, hm, hg, List.mem_singleton] at h
      subst h
      exact ⟨by simp [hm], by simp [hg]⟩

theorem mem_emitAll_pairs {pr : PairItem}
    {bs : List (BKey × List (String × MPath))} (h : pr ∈ (emitAll bs).1) :
    ∃ b ∈ bs, pr ∈ (emitBucket b).1 := by
  induction bs with
  | nil => simp [emitAll] at h
  | cons b tl ih =>
    have h2 : pr ∈ (emitBucket b).1 ++ (emitAll tl).1 := h
    rcases List.mem_append.mp h2 with h3 | h3
    · exact ⟨b, List.mem_cons_self _ _, h3⟩
    · obtain ⟨b2, hb2, h4⟩ := ih h3
      exact ⟨b2, List.mem_cons_of_mem _ hb2, h4⟩

/-- C7: every `PairItem` in a `ScanResult` produced by `scan_media` has an
`mp4_path` whose (lowercased) extension is `.mp4` and a `gif_path` whose
(lowercased) extension is `.gif`; both members share the identical `root_key`
by construction, `PairItem` having a single `root_key` field. -/
theorem scan_media_pair_extensions (fs : List MPath) (pr : PairItem)
    (h : pr ∈ (scan_media fs).pairs) :
    lowerStr pr.mp4_path.ext = ".mp4" ∧ lowerStr pr.gif_path.ext = ".gif" := by
  have h0 : pr ∈ (emitAll (sortBuckets (buildBuckets fs))).1 := h
  obtain ⟨b, hb, hpr⟩ := mem_emitAll_pairs h0
  have hbb := mem_sortBuckets hb
  obtain ⟨hm, hg⟩ := emitBucket_pair hpr
  have h1 := buildBuckets_sound fs b hbb _ (lookupExt_mem hm)
  have h2 := buildBuckets_sound fs b hbb _ (lookupExt_mem hg)
  exact ⟨h1.symm, h2.symm⟩

/-- Witness for C7 at a concrete scan of `video.mp4` plus `video.gif`. -/
theorem scan_media_pair_extensions_witness :
    lowerStr (MPath.mk "." "video" ".mp4").ext = ".mp4" ∧
      lowerStr (MPath.mk "." "video" ".gif").ext = ".gif" :=
  scan_media_pair_extensions [⟨".", "video", ".mp4"⟩, ⟨".", "video", ".gif"⟩]
    ⟨"./video", ⟨".", "video", ".mp4"⟩, ⟨".", "video", ".gif"⟩⟩ (by decide)

theorem not_variantHit_iff (E : List String) (n : String) :
    ¬ variantHit E n ↔ nameMatches (expandExisting E) n = false := by
  rw [variantHit_iff]
  simp

theorem decide_variantHit (E : List String) (n : String) :
    decide (variantHit E n) = nameMatches (expandExisting E) n := by
  by_cases h : variantHit E n
  · simp [h, (variantHit_iff E n).mp h]
  · simp [h, (not_variantHit_iff E n).mp h]

/-- C10: the pairs returned by `filter_against_filenames` are exactly the
order-preserving subsequence of the input pairs for which neither member has a
variant in the variant-expanded catalog, and the returned singles list is the
order-preserving filtering of the original singles followed by (only) singles
demoted from partially matched pairs, each carrying that pair root key and
the unmatched member path. -/
theorem filter_pairs_subsequence_and_singles_order (r : ScanResult) (E : List String) :
    (r.filter_against_filenames E).pairs
        = r.pairs.filter (fun p =>
            decide (¬ variantHit E p.mp4_path.name ∧ ¬ variantHit E p.gif_path.name))
      ∧ ∃ d : List SingleItem,
        (r.filter_against_filenames E).singles
            = r.singles.filter (fun s => decide (¬ variantHit E s.path.name)) ++ d
          ∧ ∀ x ∈ d, ∃ p ∈ r.pairs, x.root_key = p.root_key ∧
              ((x.path = p.mp4_path ∧ ¬ variantHit E p.mp4_path.name ∧
                  variantHit E p.gif_path.name) ∨
                (x.path = p.gif_path ∧ ¬ variantHit E p.gif_path.name ∧
                  variantHit E p.mp4_path.name)) := by
  constructor
  · rw [filter_pairs_eq]
    apply List.filter_congr
    intro p _
    simp [decide_variantHit]
  · refine ⟨leftoverSingles (expandExisting E) r.pairs
        ++ leftoverSingles (expandExisting E) r.pairs, ?_, ?_⟩
    · rw [filter_singles_eq]
      congr 1
      apply List.filter_congr
      intro s _
      simp [decide_variantHit]
    · intro x hx
      have hx2 : x ∈ leftoverSingles (expandExisting E) r.pairs := by
        rcases List.mem_append.mp hx with h | h <;> exact h
      obtain ⟨p, hp, hpl⟩ := mem_leftoverSingles.mp hx2
      rcases mem_pairLeftover.mp hpl with ⟨hm, hg, rfl⟩ | ⟨hm, hg, rfl⟩
      · exact ⟨p, hp, rfl, Or.inl ⟨rfl, (not_variantHit_iff E p.mp4_path.name).mpr hm,
          (variantHit_iff E p.gif_path.name).mpr hg⟩⟩
      · exact ⟨p, hp, rfl, Or.inr ⟨rfl, (not_variantHit_iff E p.gif_path.name).mpr hg,
          (variantHit_iff E p.mp4_path.name).mpr hm⟩⟩

theorem mem_pairNames {n : String} {ps : List PairItem} :
    n ∈ pairNames ps ↔ ∃ p ∈ ps, n = p.mp4_path.name ∨ n = p.gif_path.name := by
  induction ps with
  | nil => simp [pairNames]
  | cons p ps ih =>
    simp only [pairNames, List.mem_cons, ih]
    constructor
    · rintro (h | h | ⟨q, hq, hc⟩)
      · exact ⟨p, Or.inl rfl, Or.inl h⟩
      · exact ⟨p, Or.inl rfl, Or.inr h⟩
      · exact ⟨q, Or.inr hq, hc⟩
    · rintro ⟨q, hq | hq, hc⟩
      · subst hq
        rcases hc with h | h
        · exact Or.inl h
        · exact Or.inr (Or.inl h)
      · exact Or.inr (Or.inr ⟨q, hq, hc⟩)

theorem mem_memberNames_filter {r : ScanResult} {E : List String} {n : String} :
    n ∈ memberNames (r.filter_against_filenames E)
      ↔ n ∈ memberNames r ∧ nameMatches (expandExisting E) n = false := by
  constructor
  · intro h
    rcases List.mem_append.mp h with h1 | h1
    · obtain ⟨p, hp, hc⟩ := mem_pairNames.mp h1
      obtain ⟨hpr, hm, hg⟩ := mem_filter_pairs hp
      refine ⟨List.mem_append.mpr (Or.inl (mem_pairNames.mpr ⟨p, hpr, hc⟩)), ?_⟩
      rcases hc with rfl | rfl
      · exact hm
      · exact hg
    · obtain ⟨s, hs, rfl⟩ := List.mem_map.mp h1
      refine ⟨?_, mem_filter_singles hs⟩
      rw [filter_singles_eq] at hs
      rcases List.mem_append.mp hs with h2 | h2
      · exact List.mem_append.mpr (Or.inr
          (List.mem_map.mpr ⟨s, (List.mem_filter.mp h2).1, rfl⟩))
      · have h3 : s ∈ leftoverSingles (expandExisting E) r.pairs := by
          rcases List.mem_append.mp h2 with h3 | h3 <;> exact h3
        obtain ⟨p, hp, hpl⟩ := mem_leftoverSingles.mp h3
        rcases mem_pairLeftover.mp hpl with ⟨_, _, rfl⟩ | ⟨_, _, rfl⟩
        · exact List.mem_append.mpr (Or.inl (mem_pairNames.mpr ⟨p, hp, Or.inl rfl⟩))
        · exact List.mem_append.mpr (Or.inl (mem_pairNames.mpr ⟨p, hp, Or.inr rfl⟩))
  · rintro ⟨h1, h2⟩
    rcases List.mem_append.mp h1 with h3 | h3
    · obtain ⟨p, hp, hc⟩ := mem_pairNames.mp h3
      rcases hc with rfl | rfl
      · cases hg : nameMatches (expandExisting E) p.gif_path.name with
        | false =>
          refine List.mem_append.mpr (Or.inl (mem_pairNames.mpr
            ⟨p, ?_, Or.inl rfl⟩))
          rw [filter_pairs_eq]
          exact List.mem_filter.mpr ⟨hp, by simp [h2, hg]⟩
        | true =>
          refine List.mem_append.mpr (Or.inr (List.mem_map.mpr
            ⟨⟨p.root_key, p.mp4_path⟩, ?_, rfl⟩))
          rw [filter_singles_eq]
          refine List.mem_append.mpr (Or.inr (List.mem_append.mpr (Or.inl ?_)))
          exact mem_leftoverSingles.mpr ⟨p, hp,
            mem_pairLeftover.mpr (Or.inl ⟨h2, hg, rfl⟩)⟩
      · cases hm : nameMatches (expandExisting E) p.mp4_path.name with
        | false =>
          refine List.mem_append.mpr (Or.inl (mem_pairNames.mpr
            ⟨p, ?_, Or.inr rfl⟩))
          rw [filter_pairs_eq]
          exact List.mem_filter.mpr ⟨hp, by simp [h2, hm]⟩
        | true =>
          refine List.mem_append.mpr (Or.inr (List.mem_map.mpr
            ⟨⟨p.root_key, p.gif_path⟩, ?_, rfl⟩))
          rw [filter_singles_eq]
          refine List.mem_append.mpr (Or.inr (List.mem_append.mpr (Or.inl ?_)))
          exact mem_leftoverSingles.mpr ⟨p, hp,
            mem_pairLeftover.mpr (Or.inr ⟨hm, h2, rfl⟩)⟩
    · obtain ⟨s, hs, rfl⟩ := List.mem_map.mp h3
      refine List.mem_append.mpr (Or.inr (List.mem_map.mpr ⟨s, ?_, rfl⟩))
      rw [filter_singles_eq]
      exact List.mem_append.mpr (Or.inl (List.mem_filter.mpr ⟨hs, by simp [h2]⟩))

/-- C3: the diagnostics operation (modelled from the spec, as its definition
is not among the source files) judges exactly the filenames removed by
`filter_against_filenames` to be duplicates: a name is in the diagnostics
duplicates list precisely when it is a planned member name of the input and is
no longer a member name of the filtered result. -/
theorem dedupe_diagnostics_agrees_with_filter (r : ScanResult) (E : List String)
    (n : String) :
    n ∈ get_dedupe_diagnostics_duplicates r E
      ↔ n ∈ memberNames r ∧ n ∉ memberNames (r.filter_against_filenames E) := by
  constructor
  · intro h
    have h2 := List.mem_filter.mp h
    refine ⟨h2.1, fun hc => ?_⟩
    have h3 := mem_memberNames_filter.mp hc
    rw [h3.2] at h2
    exact Bool.false_ne_true h2.2
  · rintro ⟨h1, h2⟩
    refine List.mem_filter.mpr ⟨h1, ?_⟩
    cases hb : nameMatches (expandExisting E) n with
    | false => exact absurd (mem_memberNames_filter.mpr ⟨h1, hb⟩) h2
    | true => rfl

end DMS
